import Mathlib

/-!
# Verification of the flow-emulator storage and blockchain facade

A shallow embedding of the emulator's badger-backed store
(`storage/badger/store.go`) and of the blockchain facade (`blockchain.go`).

Conventions:
* Machine integers (`uint64`, `uint32`) are modelled as `Nat`; no overflow
  arithmetic occurs in the embedded code paths.
* Byte strings are modelled as `List Nat`; Go `nil` slices are `Option`'s
  `none`.
* Identifiers (block, collection, transaction ids, 32-byte digests) are
  modelled as `Nat`.  Digest computation is external to the repository
  (flow-go); digests are modelled with the injective pairing function on
  `Nat`, which at no point is assumed to agree with the real hash.
* The badger KV backend is external; it is modelled as the collection of
  typed maps matching the key schema, with `txn.Set`/`txn.Get` total.
  Badger's sorted byte-order iteration over the `event/` prefix is modelled
  by keeping the event entries in a list sorted by the lexicographic order
  of the big-endian key tuple `(height, txIndex, eventIndex, type)`.
-/

/-- A ledger register id `(owner, controller, key)` — `flowgo.RegisterID`. -/
structure RegisterID where
  owner : String
  controller : String
  key : String
deriving DecidableEq, Repr

/-- Raw register value bytes. -/
abbrev Value := List Nat

/-- A ledger delta as surfaced by `delta.Delta.RegisterUpdates()`: an ordered
list of register writes; `none` marks a deletion (a Go `nil` value). -/
abbrev Delta := List (RegisterID × Option Value)

/-- Whether a delta touches register `r`. -/
def Delta.containsReg (r : RegisterID) (d : Delta) : Bool :=
  d.any (fun e => e.1 = r)

/-- The write recorded for register `r` in a delta:
`some (some v)` a value write, `some none` a deletion, `none` untouched. -/
def Delta.lookupReg (r : RegisterID) (d : Delta) : Option (Option Value) :=
  (d.find? (fun e => e.1 = r)).map Prod.snd

/-- A stored event — `flowgo.Event` (fields used by the store). -/
structure Event where
  type : String
  txIndex : Nat
  eventIndex : Nat
  payload : List Nat
deriving DecidableEq, Repr

/-- A block header as persisted by the store — `flowgo.Block` (fields used). -/
structure Block where
  height : Nat
  parentID : Nat
  id : Nat
deriving DecidableEq, Repr

/-- A light collection: the ordered transaction ids grouped in a block. -/
structure Collection where
  txIds : List Nat
deriving DecidableEq, Repr

/-- A transaction body — `flowgo.TransactionBody` (fields used by the core). -/
structure Tx where
  id : Nat
  script : String
deriving DecidableEq, Repr

/-- A storable transaction result — `types.StorableTransactionResult`. -/
structure TxResult where
  errorCode : Nat
  errorMessage : String
  logs : List String
  events : List Event
deriving DecidableEq, Repr

/-- The event KV key `event/<be_u64 height>/<be_u32 tx>/<be_u32 evt>/<type>`.
Big-endian numeric encodings make byte-lexicographic order coincide with the
lexicographic order on this tuple. -/
structure EventKey where
  height : Nat
  txIndex : Nat
  eventIndex : Nat
  type : String
deriving DecidableEq, Repr

/-- Strict lexicographic order on event keys: the byte order of the encoded
`event/...` keys within the event prefix. -/
def EventKey.lt (a b : EventKey) : Prop :=
  a.height < b.height ∨ (a.height = b.height ∧
    (a.txIndex < b.txIndex ∨ (a.txIndex = b.txIndex ∧
      (a.eventIndex < b.eventIndex ∨ (a.eventIndex = b.eventIndex ∧
        a.type < b.type)))))

instance : DecidablePred (fun p : EventKey × EventKey => EventKey.lt p.1 p.2) :=
  fun p => by unfold EventKey.lt; infer_instance

instance (a b : EventKey) : Decidable (EventKey.lt a b) := by
  unfold EventKey.lt; infer_instance

/-- The persisted (on-disk) part of the store: the badger KV content,
split according to the key schema of the store. -/
structure DB where
  blocks : Nat → Option Block
  blockIDIndex : Nat → Option Nat
  latest : Option Nat
  collections : Nat → Option Collection
  txsStore : Nat → Option Tx
  txResults : Nat → Option TxResult
  vals : RegisterID → Nat → Option Value
  clogKV : RegisterID → Option (List Nat)
  events : List (EventKey × Event)

/-- The `Store`: the badger DB plus the in-memory changelog
(`Store.ledgerChangeLog`). -/
structure Store where
  db : DB
  clog : RegisterID → List Nat

/-- The store over an empty badger database with a fresh changelog. -/
def emptyStore : Store :=
  { db :=
    { blocks := fun _ => none
      blockIDIndex := fun _ => none
      latest := none
      collections := fun _ => none
      txsStore := fun _ => none
      txResults := fun _ => none
      vals := fun _ _ => none
      clogKV := fun _ => none
      events := [] }
    clog := fun _ => [] }

/-- Modelled from the spec: §4.C `most_recent(r, h)` — the changelog's binary
search for the largest entry that is at most `h` (the changelist code is not
part of the provided sources).  Returns `none` when no entry is ≤ `h`. -/
def mostRecentChange (clist : List Nat) (h : Nat) : Option Nat :=
  (clist.filter (fun c => c ≤ h)).max?

/-- `Store.LedgerViewByHeight(h)`'s read function: resolve the most recent
change of the register at or below `h` through the in-memory changelog and
fetch `ledger_val/<r>/<h*>` from the KV store; a missing changelog entry
leaves the Go zero value `0` as the lookup height.  Key-not-found is
silenced into `none`. -/
def ledgerViewRead (s : Store) (h : Nat) (r : RegisterID) : Option Value :=
  s.db.vals r ((mostRecentChange (s.clog r) h).getD 0)

/-- Point update of the `ledger_val` map at key `(r, h)`. -/
def setVal (f : RegisterID → Nat → Option Value) (r : RegisterID) (h : Nat)
    (v : Value) : RegisterID → Nat → Option Value :=
  fun r2 h2 => if r2 = r ∧ h2 = h then some v else f r2 h2

/-- One iteration of `Store.insertLedgerDelta`'s loop body for the delta
entry `e`: write the value at `(r, h)` when it is non-nil, append `h` to the
in-memory changelist of `r`, and persist the updated changelist. -/
def insertDeltaEntry (h : Nat) (s : Store) (e : RegisterID × Option Value) :
    Store :=
  let s1 : Store :=
    match e.2 with
    | some v => { s with db := { s.db with vals := setVal s.db.vals e.1 h v } }
    | none => s
  let newClist := s1.clog e.1 ++ [h]
  { s1 with
    clog := Function.update s1.clog e.1 newClist
    db := { s1.db with clogKV := Function.update s1.db.clogKV e.1 (some newClist) } }

/-- `Store.insertLedgerDelta(blockHeight, delta)`: the badger `Update` body
that writes each register's value (when non-nil), appends to the in-memory
changelog and mirrors the changelist to disk. -/
def applyInsertLedgerDelta (h : Nat) (d : Delta) (s : Store) : Store :=
  d.foldl (insertDeltaEntry h) s

/-- A sequence of `InsertLedgerDelta` commits applied in order. -/
def commitList (l : List (Nat × Delta)) : Store :=
  l.foldl (fun s hd => applyInsertLedgerDelta hd.1 hd.2 s) emptyStore

/-- The heights at which register `r` acquires a changelog entry over the
commit sequence `l` (in commit order). -/
def changeHeights (l : List (Nat × Delta)) (r : RegisterID) : List Nat :=
  (l.filter (fun hd => Delta.containsReg r hd.2)).map Prod.fst

/-- The value written for `r` by the delta committed at height `c`
(`none` when the commit at `c` is absent, does not touch `r`, or deletes it). -/
def writeAtHeight (l : List (Nat × Delta)) (r : RegisterID) (c : Nat) :
    Option Value :=
  match l.find? (fun hd => hd.1 = c) with
  | some hd =>
    match Delta.lookupReg r hd.2 with
    | some (some v) => some v
    | _ => none
  | none => none

/-- The claim's specification of a ledger read: the value written at the
greatest changelog entry of `r` that is at most `h`, or not-found when `r`
has no changelog entry at or below `h`. -/
def specReadAt (l : List (Nat × Delta)) (h : Nat) (r : RegisterID) :
    Option Value :=
  match ((changeHeights l r).filter (fun c => c ≤ h)).max? with
  | none => none
  | some c => writeAtHeight l r c

/-- Commit heights are strictly increasing along the sequence. -/
def HeightsSorted (l : List (Nat × Delta)) : Prop :=
  (l.map Prod.fst).Sorted (· < ·)

/-- Every delta lists each register at most once (`delta.Delta` is a map,
`RegisterUpdates` returns each key once). -/
def DeltasNodup (l : List (Nat × Delta)) : Prop :=
  ∀ hd ∈ l, (hd.2.map Prod.fst).Nodup

instance (l : List (Nat × Delta)) : Decidable (HeightsSorted l) := by
  unfold HeightsSorted List.Sorted; infer_instance

instance (l : List (Nat × Delta)) : Decidable (DeltasNodup l) := by
  unfold DeltasNodup; exact List.decidableBAll _ l

/-! ## Characterization of the ledger state after a sequence of delta commits -/

lemma insertDeltaEntry_clog (h : Nat) (s : Store) (e : RegisterID × Option Value)
    (r : RegisterID) :
    (insertDeltaEntry h s e).clog r =
      if r = e.1 then s.clog r ++ [h] else s.clog r := by
  cases h2 : e.2 <;>
    simp [insertDeltaEntry, h2, Function.update_apply] <;>
    rcases eq_or_ne r e.1 with h3 | h3 <;> simp [h3]

lemma insertDeltaEntry_vals (h : Nat) (s : Store) (e : RegisterID × Option Value)
    (r : RegisterID) (hh : Nat) :
    (insertDeltaEntry h s e).db.vals r hh =
      match e.2 with
      | some v => setVal s.db.vals e.1 h v r hh
      | none => s.db.vals r hh := by
  cases h2 : e.2 <;> simp [insertDeltaEntry, h2]

lemma applyInsertLedgerDelta_clog (h : Nat) (d : Delta) (s : Store)
    (r : RegisterID) (hnd : (d.map Prod.fst).Nodup) :
    (applyInsertLedgerDelta h d s).clog r =
      if Delta.containsReg r d then s.clog r ++ [h] else s.clog r := by
  induction d generalizing s with
  | nil => simp [applyInsertLedgerDelta, Delta.containsReg]
  | cons e tl ih =>
    simp only [List.map_cons, List.nodup_cons] at hnd
    have hstep : applyInsertLedgerDelta h (e :: tl) s =
        applyInsertLedgerDelta h tl (insertDeltaEntry h s e) := rfl
    rw [hstep, ih _ hnd.2]
    rcases eq_or_ne r e.1 with h3 | h3
    · have hnotl : Delta.containsReg r tl = false := by
        rw [Bool.eq_false_iff]
        intro hc
        rcases List.any_eq_true.mp hc with ⟨x, hx, hx2⟩
        exact hnd.1 (h3 ▸ (by simpa using hx2.symm) ▸ List.mem_map_of_mem Prod.fst hx)
      have hcon : Delta.containsReg r (e :: tl) = true := by
        simp [Delta.containsReg, h3]
      rw [hnotl, hcon]
      simp [insertDeltaEntry_clog, h3]
    · have hcon : Delta.containsReg r (e :: tl) = Delta.containsReg r tl := by
        simp [Delta.containsReg, List.any_cons, Ne.symm h3]
      rw [hcon, insertDeltaEntry_clog]
      simp [h3]

lemma lookupReg_cons_self (e : RegisterID × Option Value) (tl : Delta)
    (r : RegisterID) (h3 : r = e.1) :
    Delta.lookupReg r (e :: tl) = some e.2 := by
  simp [Delta.lookupReg, List.find?_cons, h3]

lemma lookupReg_cons_ne (e : RegisterID × Option Value) (tl : Delta)
    (r : RegisterID) (h3 : r ≠ e.1) :
    Delta.lookupReg r (e :: tl) = Delta.lookupReg r tl := by
  simp [Delta.lookupReg, List.find?_cons, Ne.symm h3]

lemma lookupReg_eq_none_of_not_mem (d : Delta) (r : RegisterID)
    (hm : r ∉ d.map Prod.fst) : Delta.lookupReg r d = none := by
  have : d.find? (fun e => e.1 = r) = none := by
    rw [List.find?_eq_none]
    intro x hx hpx
    exact hm ((by simpa using hpx) ▸ List.mem_map_of_mem Prod.fst hx)
  simp [Delta.lookupReg, this]

lemma applyInsertLedgerDelta_vals (h : Nat) (d : Delta) (s : Store)
    (r : RegisterID) (hh : Nat) (hnd : (d.map Prod.fst).Nodup) :
    (applyInsertLedgerDelta h d s).db.vals r hh =
      if hh = h then
        match Delta.lookupReg r d with
        | some (some v) => some v
        | _ => s.db.vals r hh
      else s.db.vals r hh := by
  induction d generalizing s with
  | nil =>
    simp only [applyInsertLedgerDelta, List.foldl_nil, Delta.lookupReg,
      List.find?_nil, Option.map_none]
    split <;> rfl
  | cons e tl ih =>
    simp only [List.map_cons, List.nodup_cons] at hnd
    have hstep : applyInsertLedgerDelta h (e :: tl) s =
        applyInsertLedgerDelta h tl (insertDeltaEntry h s e) := rfl
    rw [hstep, ih _ hnd.2]
    rcases eq_or_ne r e.1 with h3 | h3
    · subst h3
      have htl : Delta.lookupReg e.1 tl = none :=
        lookupReg_eq_none_of_not_mem tl e.1 hnd.1
      rw [lookupReg_cons_self e tl e.1 rfl, htl]
      have hv : (insertDeltaEntry h s e).db.vals e.1 hh =
          match e.2 with
          | some v => setVal s.db.vals e.1 h v e.1 hh
          | none => s.db.vals e.1 hh := insertDeltaEntry_vals h s e e.1 hh
      cases h2 : e.2 with
      | none =>
        rw [h2] at hv
        simp only [hv]
      | some v =>
        rw [h2] at hv
        simp only [hv, setVal]
        rcases eq_or_ne hh h with h4 | h4 <;> simp [h4]
    · rw [lookupReg_cons_ne e tl r h3]
      have hv : (insertDeltaEntry h s e).db.vals r hh = s.db.vals r hh := by
        rw [insertDeltaEntry_vals]
        cases h2 : e.2 with
        | none => rfl
        | some v => simp [setVal, h3]
      rw [hv]

lemma commitList_append_singleton (l : List (Nat × Delta)) (x : Nat × Delta) :
    commitList (l ++ [x]) = applyInsertLedgerDelta x.1 x.2 (commitList l) := by
  simp [commitList, List.foldl_append]

lemma commitList_clog (l : List (Nat × Delta)) (hnd : DeltasNodup l)
    (r : RegisterID) : (commitList l).clog r = changeHeights l r := by
  induction l using List.reverseRecOn with
  | nil => simp [commitList, changeHeights, emptyStore]
  | append_singleton l x ih =>
    have hnd2 : DeltasNodup l := fun hd hm => hnd hd (List.mem_append_left _ hm)
    have hx : (x.2.map Prod.fst).Nodup :=
      hnd x (List.mem_append_right _ (List.mem_singleton_self x))
    rw [commitList_append_singleton, applyInsertLedgerDelta_clog _ _ _ _ hx,
      ih hnd2]
    cases hcon : Delta.containsReg r x.2 <;>
      simp [changeHeights, List.filter_append, hcon]

lemma heightsSorted_of_append (l : List (Nat × Delta)) (x : Nat × Delta)
    (hs : HeightsSorted (l ++ [x])) : HeightsSorted l := by
  unfold HeightsSorted at hs ⊢
  rw [List.map_append] at hs
  exact (List.pairwise_append.mp hs).1

lemma heightsSorted_last_fresh (l : List (Nat × Delta)) (x : Nat × Delta)
    (hs : HeightsSorted (l ++ [x])) :
    l.find? (fun hd => hd.1 = x.1) = none := by
  unfold HeightsSorted at hs
  rw [List.map_append] at hs
  have hlt : ∀ a ∈ l.map Prod.fst, a < x.1 := fun a ha =>
    (List.pairwise_append.mp hs).2.2 a ha x.1 (by simp)
  rw [List.find?_eq_none]
  intro hd hm hp
  have heq : hd.1 = x.1 := by simpa using hp
  exact absurd (heq ▸ hlt hd.1 (List.mem_map_of_mem Prod.fst hm)) (lt_irrefl _)

lemma commitList_vals (l : List (Nat × Delta)) (hs : HeightsSorted l)
    (hnd : DeltasNodup l) (r : RegisterID) (c : Nat) :
    (commitList l).db.vals r c = writeAtHeight l r c := by
  induction l using List.reverseRecOn with
  | nil => simp [commitList, writeAtHeight, emptyStore]
  | append_singleton l x ih =>
    have hnd2 : DeltasNodup l := fun hd hm => hnd hd (List.mem_append_left _ hm)
    have hx : (x.2.map Prod.fst).Nodup :=
      hnd x (List.mem_append_right _ (List.mem_singleton_self x))
    have hfresh := heightsSorted_last_fresh l x hs
    rw [commitList_append_singleton, applyInsertLedgerDelta_vals _ _ _ _ _ hx]
    rcases eq_or_ne c x.1 with h4 | h4
    · rw [if_pos h4]
      have hfreshc : l.find? (fun hd => hd.1 = c) = none := by
        rw [h4]; exact hfresh
      have hvals : (commitList l).db.vals r c = none := by
        rw [ih (heightsSorted_of_append l x hs) hnd2]
        unfold writeAtHeight
        rw [hfreshc]
      have hwa : writeAtHeight (l ++ [x]) r c =
          (match Delta.lookupReg r x.2 with
           | some (some v) => some v
           | _ => none) := by
        unfold writeAtHeight
        rw [List.find?_append, hfreshc, Option.none_or]
        have hfx : [x].find? (fun hd => hd.1 = c) = some x := by
          simp [List.find?_cons, h4]
        rw [hfx]
      rw [hwa, hvals]
    · rw [if_neg h4]
      have hwa : writeAtHeight (l ++ [x]) r c = writeAtHeight l r c := by
        unfold writeAtHeight
        rw [List.find?_append]
        have hnone : [x].find? (fun hd => hd.1 = c) = none := by
          simp [List.find?_cons, Ne.symm h4]
        rw [hnone, Option.or_none]
      rw [hwa, ih (heightsSorted_of_append l x hs) hnd2]

lemma writeAtHeight_eq_none_of_not_mem (l : List (Nat × Delta))
    (r : RegisterID) (c : Nat) (hc : c ∉ changeHeights l r) :
    writeAtHeight l r c = none := by
  cases hf : l.find? (fun hd => hd.1 = c) with
  | none => unfold writeAtHeight; rw [hf]
  | some hd =>
    have hres : writeAtHeight l r c =
        (match Delta.lookupReg r hd.2 with
         | some (some v) => some v
         | _ => none) := by
      unfold writeAtHeight
      rw [hf]
    cases hl : Delta.lookupReg r hd.2 with
    | none => rw [hres, hl]
    | some w =>
      cases w with
      | none => rw [hres, hl]
      | some v =>
        exfalso
        apply hc
        have hm := List.mem_of_find?_eq_some hf
        have hp : hd.1 = c := by simpa using List.find?_some hf
        have hcon : Delta.containsReg r hd.2 = true := by
          unfold Delta.lookupReg at hl
          cases hf2 : hd.2.find? (fun e => e.1 = r) with
          | none => rw [hf2] at hl; simp at hl
          | some e2 =>
            exact List.any_eq_true.mpr
              ⟨e2, List.mem_of_find?_eq_some hf2,
                by simpa using List.find?_some hf2⟩
        unfold changeHeights
        rw [← hp]
        exact List.mem_map_of_mem Prod.fst (List.mem_filter.mpr ⟨hm, hcon⟩)

/-- C1. For every height `h` and register `r`, reading `r` through
`LedgerViewByHeight(h)` over the store produced by any sequence of ledger
delta commits (at strictly increasing heights, each delta naming a register
at most once) returns the value written at the greatest changelog entry of
`r` at most `h`, and not-found (`none`) when `r` has no changelog entry at
or below `h`. -/
theorem ledger_view_reads_most_recent_write (l : List (Nat × Delta))
    (hs : HeightsSorted l) (hnd : DeltasNodup l) (h : Nat) (r : RegisterID) :
    ledgerViewRead (commitList l) h r = specReadAt l h r := by
  unfold ledgerViewRead specReadAt mostRecentChange
  rw [commitList_clog l hnd r]
  cases hm : ((changeHeights l r).filter (fun c => c ≤ h)).max? with
  | none =>
    have hfil : (changeHeights l r).filter (fun c => c ≤ h) = [] :=
      List.max?_eq_none_iff.mp hm
    have h0 : 0 ∉ changeHeights l r := by
      intro h0
      have hmem : (0 : Nat) ∈ (changeHeights l r).filter (fun c => c ≤ h) :=
        List.mem_filter.mpr ⟨h0, by simp⟩
      rw [hfil] at hmem
      simp at hmem
    simp only [Option.getD_none]
    rw [commitList_vals l hs hnd r 0]
    exact writeAtHeight_eq_none_of_not_mem l r 0 h0
  | some c =>
    simp only [Option.getD_some]
    exact commitList_vals l hs hnd r c

def regA : RegisterID := ⟨"A", "", "balance"⟩

example : ledgerViewRead
    (commitList [(1, [(regA, some [10])]), (3, [(regA, none)])]) 1 regA
    = some [10] := by decide

example : ledgerViewRead
    (commitList [(1, [(regA, some [10])]), (3, [(regA, none)])]) 4 regA
    = none := by decide

/-- Witness for C1 at a concrete commit sequence: a write of register
`regA` at height 1 followed by its deletion at height 3, read at height 2. -/
theorem ledger_view_reads_most_recent_write_witness :
    HeightsSorted [(1, [(regA, some [10])]), (3, [(regA, none)])] ∧
    DeltasNodup [(1, [(regA, some [10])]), (3, [(regA, none)])] ∧
    ledgerViewRead (commitList [(1, [(regA, some [10])]), (3, [(regA, none)])])
        2 regA
      = specReadAt [(1, [(regA, some [10])]), (3, [(regA, none)])] 2 regA :=
  ⟨by decide, by decide,
    ledger_view_reads_most_recent_write _ (by decide) (by decide) 2 regA⟩

/-! ## Snapshots: JumpToContext and the changelog rebuild of setup -/

/-- `Store.JumpToContext(context)`: close the badger DB, switch the on-disk
state to the named snapshot through git, and reopen badger over the
snapshot's files.  The persisted state becomes the snapshot's; the
`ledgerChangeLog` field of the `Store` is left untouched by this function
(`setup` is only invoked from `New`). -/
def jumpToContext (s : Store) (snap : DB) : Store :=
  { db := snap, clog := s.clog }

/-- The changelog rebuild performed by `Store.setup()`: prefix-scan the
persisted `ledger_clog/*` entries of the (re)opened backend and populate a
fresh in-memory changelog; registers without a persisted changelist keep an
empty changelist. -/
def rebuildChangelog (d : DB) : RegisterID → List Nat :=
  fun r => (d.clogKV r).getD []

/-- C2 (failing-input evaluation).  Take the empty database as the snapshot
state, commit a delta writing `regA` at height 1, then `JumpToContext` back
to the snapshot: the in-memory changelog still holds the post-snapshot entry
`[1]` for `regA`, while rebuilding from the reopened backend's persisted
changelists (what `setup` would produce) yields `[]`.  `JumpToContext`
never rebuilds the in-memory changelog, so the two disagree after the
jump. -/
theorem jump_to_context_stale_changelog :
    (jumpToContext (applyInsertLedgerDelta 1 [(regA, some [10])] emptyStore)
        emptyStore.db).clog regA = [1] ∧
    rebuildChangelog
        (jumpToContext (applyInsertLedgerDelta 1 [(regA, some [10])] emptyStore)
          emptyStore.db).db regA = [] ∧
    (jumpToContext (applyInsertLedgerDelta 1 [(regA, some [10])] emptyStore)
        emptyStore.db).clog regA ≠
      rebuildChangelog
        (jumpToContext (applyInsertLedgerDelta 1 [(regA, some [10])] emptyStore)
          emptyStore.db).db regA := by
  refine ⟨?_, ?_, ?_⟩ <;> decide

/-! ## The persisted value entries under deletions (claim C3) -/

/-- C3 counterexample: a delta that deletes `regA` at height 1 claims the
changelog entry `1`, yet no value entry exists at `(regA, 1)` in the KV
backend — `insertLedgerDelta` performs no `ledger_val` write for a nil
value, so the deletion is recorded as absence of the value entry, not as an
entry with empty bytes. -/
theorem deletion_leaves_no_value_entry :
    (commitList [(1, [(regA, none)])]).clog regA = [1] ∧
    (commitList [(1, [(regA, none)])]).db.vals regA 1 = none := by
  constructor <;> decide

/-- C3 (amended).  After any sequence of delta commits at strictly
increasing heights, register `r` has a changelog entry at height `c` iff the
delta committed at `c` touches `r`, and the KV backend holds a value entry
at `(r, c)` iff that delta wrote a non-deletion value for `r` (the entry
then holds exactly the written bytes); a deletion claims its changelog entry
but leaves no value entry at `(r, c)`. -/
theorem changelog_entries_and_value_entries (l : List (Nat × Delta))
    (hs : HeightsSorted l) (hnd : DeltasNodup l) (r : RegisterID) (c : Nat) :
    (c ∈ (commitList l).clog r ↔
      ∃ hd ∈ l, hd.1 = c ∧ Delta.containsReg r hd.2 = true) ∧
    (commitList l).db.vals r c = writeAtHeight l r c := by
  constructor
  · rw [commitList_clog l hnd r]
    unfold changeHeights
    simp only [List.mem_map, List.mem_filter]
    constructor
    · rintro ⟨hd, ⟨hm, hcon⟩, heq⟩
      exact ⟨hd, hm, heq, hcon⟩
    · rintro ⟨hd, hm, heq, hcon⟩
      exact ⟨hd, ⟨hm, hcon⟩, heq⟩
  · exact commitList_vals l hs hnd r c

/-- Witness for the amended C3 at the concrete deletion commit. -/
theorem changelog_entries_and_value_entries_witness :
    HeightsSorted [(1, [(regA, none)])] ∧
    DeltasNodup [(1, [(regA, none)])] ∧
    ((1 ∈ (commitList [(1, [(regA, none)])]).clog regA ↔
      ∃ hd ∈ [((1 : Nat), [(regA, (none : Option Value))])], hd.1 = 1 ∧
        Delta.containsReg regA hd.2 = true) ∧
    (commitList [(1, [(regA, none)])]).db.vals regA 1 =
      writeAtHeight [(1, [(regA, none)])] regA 1) :=
  ⟨by decide, by decide,
    changelog_entries_and_value_entries _ (by decide) (by decide) regA 1⟩

/-! ## The block store: StoreBlock, CommitBlock and insertEvents -/

/-- Digest stand-in for `LightCollection.ID()` (the real digest is an
external hash; only injectivity on the grouped tx ids could matter and no
claim relies on it). -/
def collectionId (col : Collection) : Nat :=
  col.txIds.foldr Nat.pair 0

/-- `store(block)`: insert the block at its height, add the id→height index
entry, and advance the `latest_block` pointer when the height is at least
the current latest (a missing pointer reads as the Go zero value `0`). -/
def applyStoreBlock (b : Block) (s : Store) : Store :=
  { s with db :=
    { s.db with
      blocks := Function.update s.db.blocks b.height (some b)
      blockIDIndex := Function.update s.db.blockIDIndex b.id (some b.height)
      latest :=
        if b.height ≥ s.db.latest.getD 0 then some b.height else s.db.latest } }

/-- `insertCollection(col)`. -/
def applyInsertCollection (col : Collection) (s : Store) : Store :=
  { s with db :=
    { s.db with
      collections :=
        Function.update s.db.collections (collectionId col) (some col) } }

/-- `insertTransaction(txID, tx)`. -/
def applyInsertTransaction (txID : Nat) (tx : Tx) (s : Store) : Store :=
  { s with db :=
    { s.db with txsStore := Function.update s.db.txsStore txID (some tx) } }

/-- `insertTransactionResult(txID, result)`. -/
def applyInsertTransactionResult (txID : Nat) (res : TxResult) (s : Store) :
    Store :=
  { s with db :=
    { s.db with txResults := Function.update s.db.txResults txID (some res) } }

/-- The event key written by `insertEvents` for one event at a block
height. -/
def mkEventKey (h : Nat) (e : Event) : EventKey :=
  ⟨h, e.txIndex, e.eventIndex, e.type⟩

/-- `txn.Set` on the event prefix: badger keeps keys unique and iterates
them in sorted byte order, modelled by sorted insertion with replacement on
key equality. -/
def eventKVSet (k : EventKey) (v : Event) :
    List (EventKey × Event) → List (EventKey × Event)
  | [] => [(k, v)]
  | (k2, v2) :: rest =>
    if EventKey.lt k k2 then (k, v) :: (k2, v2) :: rest
    else if k = k2 then (k, v) :: rest
    else (k2, v2) :: eventKVSet k v rest

/-- `insertEvents(blockHeight, events)`: write each event under its
`event/<height>/<txIndex>/<eventIndex>/<type>` key. -/
def applyInsertEvents (h : Nat) (events : List Event) (s : Store) : Store :=
  events.foldl
    (fun s e =>
      { s with db :=
        { s.db with events := eventKVSet (mkEventKey h e) e s.db.events } })
    s

/-- Errors surfaced by the store's `CommitBlock`. -/
inductive StoreErr where
  | countMismatch
  | checkpointFailed
deriving DecidableEq, Repr

/-- The writes performed inside `CommitBlock`'s single backend
transaction, in code order: block, collections, transactions and results,
ledger delta, events. -/
def applyCommitWrites (b : Block) (cols : List Collection)
    (txsl : List (Nat × Tx)) (resl : List (Nat × TxResult)) (d : Delta)
    (events : List Event) (s : Store) : Store :=
  applyInsertEvents b.height events
    (applyInsertLedgerDelta b.height d
      (resl.foldl (fun s p => applyInsertTransactionResult p.1 p.2 s)
        (txsl.foldl (fun s p => applyInsertTransaction p.1 p.2 s)
          (cols.foldl (fun s col => applyInsertCollection col s)
            (applyStoreBlock b s)))))

/-- `Store.CommitBlock`: reject a transactions/results count mismatch
up front; otherwise perform all writes in one backend transaction and then
run the git checkpoint (`s.newCommit(message)`), whose success is the
environment input `gitOk`.  The checkpoint runs after the backend
transaction has committed, and its error is returned as `CommitBlock`'s
error. -/
def storeCommitBlock (gitOk : Bool) (b : Block) (cols : List Collection)
    (txsl : List (Nat × Tx)) (resl : List (Nat × TxResult)) (d : Delta)
    (events : List Event) (s : Store) : Option StoreErr × Store :=
  if txsl.length ≠ resl.length then (some StoreErr.countMismatch, s)
  else
    let s1 := applyCommitWrites b cols txsl resl d events s
    if gitOk then (none, s1) else (some StoreErr.checkpointFailed, s1)

def blkOne : Block := ⟨1, 0, 1⟩

def txStub : Tx := ⟨7, "transaction {}"⟩

/-- C4 counterexample: when the git checkpoint step fails after the backend
transaction has committed, `CommitBlock` returns an error even though the
ledger and changelog writes have been applied — the state has changed. -/
theorem commit_block_error_with_state_changed :
    (storeCommitBlock false blkOne [] [] [] [(regA, some [7])] []
        emptyStore).1 = some StoreErr.checkpointFailed ∧
    (storeCommitBlock false blkOne [] [] [] [(regA, some [7])] []
        emptyStore).2.clog regA = [1] ∧
    emptyStore.clog regA = [] := by
  refine ⟨?_, ?_, ?_⟩ <;> decide

/-- C4 (amended).  A transactions/results count mismatch is rejected with no
state change at all; when the counts match, all writes — block, id index,
latest pointer, collections, transactions, results, ledger values, the
changelog (in-memory and persisted) and events — are applied together in the
single backend transaction, and the call succeeds exactly when the
subsequent git checkpoint succeeds (a checkpoint failure yields an error
with all writes already applied). -/
theorem commit_block_atomicity (gitOk : Bool) (b : Block)
    (cols : List Collection) (txsl : List (Nat × Tx))
    (resl : List (Nat × TxResult)) (d : Delta) (events : List Event)
    (s : Store) :
    (txsl.length ≠ resl.length →
      storeCommitBlock gitOk b cols txsl resl d events s =
        (some StoreErr.countMismatch, s)) ∧
    (txsl.length = resl.length →
      (storeCommitBlock gitOk b cols txsl resl d events s).2 =
        applyCommitWrites b cols txsl resl d events s ∧
      ((storeCommitBlock gitOk b cols txsl resl d events s).1 = none ↔
        gitOk = true)) := by
  constructor
  · intro hne
    simp [storeCommitBlock, hne]
  · intro heq
    cases gitOk <;> simp [storeCommitBlock, heq]

/-- Witness for the amended C4: a count mismatch leaves the empty store
untouched, and a matching commit applies the writes with success tied to the
checkpoint. -/
theorem commit_block_atomicity_witness :
    (storeCommitBlock true blkOne [] [(7, txStub)] [] [] [] emptyStore =
      (some StoreErr.countMismatch, emptyStore)) ∧
    ((storeCommitBlock true blkOne [] [] [] [(regA, some [7])] []
        emptyStore).2 =
      applyCommitWrites blkOne [] [] [] [(regA, some [7])] [] emptyStore ∧
    ((storeCommitBlock true blkOne [] [] [] [(regA, some [7])] []
        emptyStore).1 = none ↔ true = true)) :=
  ⟨(commit_block_atomicity true blkOne [] [(7, txStub)] [] [] []
      emptyStore).1 (by decide),
   (commit_block_atomicity true blkOne [] [] [] [(regA, some [7])] []
      emptyStore).2 (by decide)⟩

/-! ## The pending block pipeline and the blockchain facade -/

/-- Modelled from the spec: §4.F the pending block (the `pendingBlock` file
of the emulator package is not among the provided sources; its observable
behaviour is fixed by §4.F and by its uses in `blockchain.go`).  `index`
counts the transactions already executed. -/
structure PendingBlock where
  height : Nat
  parentID : Nat
  txs : List Tx
  results : List (Nat × TxResult)
  events : List Event
  blockDelta : Delta
  index : Nat
deriving Repr

/-- `pendingBlock.ExecutionStarted()`: index > 0 (`blockchain.go`: "If index
> 0, pending block has begun execution"). -/
def PendingBlock.executionStarted (pb : PendingBlock) : Bool :=
  decide (0 < pb.index)

/-- `pendingBlock.ExecutionComplete()`: every transaction has been run. -/
def PendingBlock.executionComplete (pb : PendingBlock) : Bool :=
  decide (pb.txs.length ≤ pb.index)

/-- `pendingBlock.Empty()`: no transactions are pending. -/
def PendingBlock.isEmpty (pb : PendingBlock) : Bool :=
  pb.txs.isEmpty

/-- `pendingBlock.ContainsTransaction(txID)`. -/
def PendingBlock.containsTransaction (pb : PendingBlock) (txID : Nat) : Bool :=
  pb.txs.any (fun t => t.id = txID)

/-- `pendingBlock.ID()`: the digest of the pending header (stand-in
pairing; no claim relies on the digest itself). -/
def PendingBlock.idOf (pb : PendingBlock) : Nat :=
  Nat.pair pb.parentID pb.height

/-- `pendingBlock.AddTransaction`. -/
def PendingBlock.addTx (pb : PendingBlock) (tx : Tx) : PendingBlock :=
  { pb with txs := pb.txs ++ [tx] }

/-- `pendingBlock.Block()`: the sealed block built from the pending
header. -/
def PendingBlock.toBlock (pb : PendingBlock) : Block :=
  ⟨pb.height, pb.parentID, Nat.pair pb.parentID pb.height⟩

/-- `pendingBlock.Collections()`: one light collection grouping the pending
transactions, none for an empty block. -/
def PendingBlock.collections (pb : PendingBlock) : List Collection :=
  if pb.txs.isEmpty then [] else [⟨pb.txs.map Tx.id⟩]

/-- Modelled from the spec: §4.F — a fresh pending block anchored on the
latest committed block: height `latest + 1`, parent the latest block's
id. -/
def newPendingBlock (parent : Block) : PendingBlock :=
  { height := parent.height + 1
    parentID := parent.id
    txs := []
    results := []
    events := []
    blockDelta := []
    index := 0 }

/-- The facade state: committed storage plus the single pending block. -/
structure Chain where
  store : Store
  pending : PendingBlock

/-- The typed errors of the facade (`errors.go` taxonomy, §7). -/
inductive EmuErr where
  | duplicateTransaction (txID : Nat)
  | pendingBlockMidExecution (blockID : Nat)
  | pendingBlockCommitBeforeExecution (blockID : Nat)
  | pendingBlockTransactionsExhausted (blockID : Nat)
  | validationFailed
  | vmFatal
  | storeFailure (e : StoreErr)
  | storageNotFound
  | transactionReverted
  | accountCreatedEventMissing
deriving DecidableEq, Repr

/-- The external virtual machine: on a transaction it either fails fatally
(`none`) or yields the transaction's result together with its ledger
writes. -/
abbrev VM := Tx → Option (TxResult × Delta)

/-- Delta merge on the transaction boundary: later writes override earlier
ones for the same register. -/
def mergeDelta (d1 d2 : Delta) : Delta :=
  d1.filter (fun e => (Delta.lookupReg e.1 d2).isNone) ++ d2

/-- `Blockchain.addTransaction`: reject when execution of the pending block
has started, when the id is already pending, or already committed to
storage; then validate (the flow-go transaction validator is external and
enters as the oracle `vOk`); finally append to the pending block. -/
def addTransaction (vOk : Bool) (tx : Tx) (c : Chain) : Option EmuErr × Chain :=
  if c.pending.executionStarted then
    (some (EmuErr.pendingBlockMidExecution c.pending.idOf), c)
  else if c.pending.containsTransaction tx.id then
    (some (EmuErr.duplicateTransaction tx.id), c)
  else if (c.store.db.txsStore tx.id).isSome then
    (some (EmuErr.duplicateTransaction tx.id), c)
  else if !vOk then (some EmuErr.validationFailed, c)
  else (none, { c with pending := c.pending.addTx tx })

/-- `Blockchain.executeNextTransaction` with the pendingBlock part modelled
from the spec (§4.F execute-next): refuse when execution is complete; run
the VM on the next indexed transaction; on success record the result and its
events (stamped with the transaction index, event indices contiguous from
0), merge the writes into the block delta and increment the index.  A fatal
VM error leaves the pending block unchanged. -/
def executeNextTransaction (vm : VM) (c : Chain) :
    Except EmuErr TxResult × Chain :=
  if c.pending.executionComplete then
    (Except.error (EmuErr.pendingBlockTransactionsExhausted c.pending.idOf), c)
  else
    match c.pending.txs[c.pending.index]? with
    | none =>
      (Except.error (EmuErr.pendingBlockTransactionsExhausted c.pending.idOf),
        c)
    | some tx =>
      match vm tx with
      | none => (Except.error EmuErr.vmFatal, c)
      | some (res, d) =>
        let stamped := res.events.enum.map
          (fun p => { p.2 with txIndex := c.pending.index, eventIndex := p.1 })
        let res2 := { res with events := stamped }
        (Except.ok res2,
          { c with pending :=
            { c.pending with
              results := c.pending.results ++ [(tx.id, res2)]
              events := c.pending.events ++ stamped
              blockDelta := mergeDelta c.pending.blockDelta d
              index := c.pending.index + 1 } })

/-- The `for !ExecutionComplete()` loop of `executeBlock`, by fuel: the
remaining number of unexecuted transactions. -/
def executeRemaining (vm : VM) :
    Nat → Chain → Except EmuErr (List TxResult) × Chain
  | 0, c => (Except.ok [], c)
  | n + 1, c =>
    match executeNextTransaction vm c with
    | (Except.error e, c2) => (Except.error e, c2)
    | (Except.ok r, c2) =>
      match executeRemaining vm n c2 with
      | (Except.ok rs, c3) => (Except.ok (r :: rs), c3)
      | (Except.error e, c3) => (Except.error e, c3)

/-- `Blockchain.executeBlock`: a no-op on an empty pending block; an error
when execution is already complete; otherwise execute transactions until the
pending block is complete, collecting the results. -/
def executeBlock (vm : VM) (c : Chain) :
    Except EmuErr (List TxResult) × Chain :=
  if c.pending.isEmpty then (Except.ok [], c)
  else if c.pending.executionComplete then
    (Except.error (EmuErr.pendingBlockTransactionsExhausted c.pending.idOf), c)
  else executeRemaining vm (c.pending.txs.length - c.pending.index) c

/-- `Blockchain.commitBlock`: reject commit-before-execution (nonempty, not
started) and mid-execution (started, not complete); otherwise seal the
pending block, commit it through the store (checkpoint outcome `gitOk`) and
reset the pending block onto the committed block. -/
def commitBlockF (gitOk : Bool) (c : Chain) : Except EmuErr Block × Chain :=
  if !c.pending.executionStarted && !c.pending.isEmpty then
    (Except.error (EmuErr.pendingBlockCommitBeforeExecution c.pending.idOf), c)
  else if c.pending.executionStarted && !c.pending.executionComplete then
    (Except.error (EmuErr.pendingBlockMidExecution c.pending.idOf), c)
  else
    match storeCommitBlock gitOk c.pending.toBlock c.pending.collections
        (c.pending.txs.map (fun t => (t.id, t))) c.pending.results
        c.pending.blockDelta c.pending.events c.store with
    | (some e, s2) =>
      (Except.error (EmuErr.storeFailure e), { c with store := s2 })
    | (none, s2) =>
      (Except.ok c.pending.toBlock,
        { store := s2, pending := newPendingBlock c.pending.toBlock })

/-- `Blockchain.executeAndCommitBlock`: `executeBlock` then `commitBlock`. -/
def executeAndCommitBlock (vm : VM) (gitOk : Bool) (c : Chain) :
    Except EmuErr (Block × List TxResult) × Chain :=
  match executeBlock vm c with
  | (Except.error e, c2) => (Except.error e, c2)
  | (Except.ok results, c2) =>
    match commitBlockF gitOk c2 with
    | (Except.error e, c3) => (Except.error e, c3)
    | (Except.ok blk, c3) => (Except.ok (blk, results), c3)

/-- Transaction status as reported by `GetTransactionResult`. -/
inductive TxStatus where
  | pending
  | unknown
  | sealed
deriving DecidableEq, Repr

/-- The result view returned by `GetTransactionResult`: status, the attached
execution error (code, message) if any, and the events. -/
structure TxResultView where
  status : TxStatus
  errInfo : Option (Nat × String)
  events : List Event
deriving DecidableEq, Repr

/-- `Blockchain.GetTransactionResult`: `Pending` when the id is in the
pending block; otherwise `Unknown` when storage has no result; otherwise
`Sealed` with the stored error attached exactly when the stored error code
is non-zero, and with the stored events. -/
def getTransactionResultF (c : Chain) (txID : Nat) : TxResultView :=
  if c.pending.containsTransaction txID then ⟨TxStatus.pending, none, []⟩
  else
    match c.store.db.txResults txID with
    | none => ⟨TxStatus.unknown, none, []⟩
    | some r =>
      ⟨TxStatus.sealed,
        if r.errorCode ≠ 0 then some (r.errorCode, r.errorMessage) else none,
        r.events⟩

/-- The account-creation event type (`sdk.EventAccountCreated`). -/
def accountCreatedType : String := "flow.AccountCreated"

/-- The created address carried by an `AccountCreated` event
(`event.Value.Fields[0]`; the cadence payload is external, its first field
is modelled as the head of the payload bytes). -/
def eventAddress (e : Event) : Nat := e.payload.headD 0

/-- `Blockchain.CreateAccount`: look up the latest block, submit the
templated account-creation transaction (template construction and signing
are external; the built transaction enters as `txC`), execute and commit the
block, take the last result, commit a second time on the freshly reset
pending block, and extract the new address from the `AccountCreated` event
of the last result (the zero address counts as absent).  A missing last
result corresponds to the Go out-of-range panic and is modelled as a fatal
error before the second commit. -/
def createAccountF (vm : VM) (vOk gitOk : Bool) (txC : Tx) (c : Chain) :
    Except EmuErr Nat × Chain :=
  match c.store.db.latest with
  | none => (Except.error EmuErr.storageNotFound, c)
  | some _ =>
    match addTransaction vOk txC c with
    | (some e, c1) => (Except.error e, c1)
    | (none, c1) =>
      match executeAndCommitBlock vm gitOk c1 with
      | (Except.error e, c2) => (Except.error e, c2)
      | (Except.ok (_, results), c2) =>
        match results.getLast? with
        | none => (Except.error EmuErr.vmFatal, c2)
        | some lastResult =>
          match commitBlockF gitOk c2 with
          | (Except.error e, c3) => (Except.error e, c3)
          | (Except.ok _, c3) =>
            if lastResult.errorCode ≠ 0 then
              (Except.error EmuErr.transactionReverted, c3)
            else
              match lastResult.events.find?
                  (fun e => e.type = accountCreatedType) with
              | none => (Except.error EmuErr.accountCreatedEventMissing, c3)
              | some ev =>
                if eventAddress ev = 0 then
                  (Except.error EmuErr.accountCreatedEventMissing, c3)
                else (Except.ok (eventAddress ev), c3)

/-- Reachability invariant of the pending block: the executed index never
exceeds the transaction count and there is one recorded result per executed
transaction. -/
def PendingWF (pb : PendingBlock) : Prop :=
  pb.index ≤ pb.txs.length ∧ pb.results.length = pb.index

instance (pb : PendingBlock) : Decidable (PendingWF pb) := by
  unfold PendingWF; infer_instance

/-! ## Facade guard theorems (claims C5, C6, C7, C8) -/

/-- C5.  The facade's `CommitBlock` (under a succeeding checkpoint) fails
exactly on the disallowed pending-block states: mid-execution when execution
has started but not completed, commit-before-execution when the pending
block is nonempty and execution has not started; otherwise — empty pending
block, or all transactions executed — it seals the pending block, persists
it together with its data, and resets the pending block onto the committed
block. -/
theorem commit_block_facade_guards (c : Chain) (hwf : PendingWF c.pending) :
    (c.pending.executionStarted = true → c.pending.executionComplete = false →
      commitBlockF true c =
        (Except.error (EmuErr.pendingBlockMidExecution c.pending.idOf), c)) ∧
    (c.pending.executionStarted = false → c.pending.isEmpty = false →
      commitBlockF true c =
        (Except.error (EmuErr.pendingBlockCommitBeforeExecution
          c.pending.idOf), c)) ∧
    (c.pending.isEmpty = true ∨ c.pending.executionComplete = true →
      commitBlockF true c =
        (Except.ok c.pending.toBlock,
          { store := applyCommitWrites c.pending.toBlock c.pending.collections
              (c.pending.txs.map (fun t => (t.id, t))) c.pending.results
              c.pending.blockDelta c.pending.events c.store
            pending := newPendingBlock c.pending.toBlock })) := by
  refine ⟨?_, ?_, ?_⟩
  · intro h1 h2
    simp [commitBlockF, h1, h2]
  · intro h1 h2
    simp [commitBlockF, h1, h2]
  · intro hcase
    have hcomp : c.pending.executionComplete = true := by
      rcases hcase with hemp | hcomp
      · unfold PendingBlock.isEmpty at hemp
        rw [List.isEmpty_iff] at hemp
        simp [PendingBlock.executionComplete, hemp]
      · exact hcomp
    have hcomp2 : c.pending.txs.length ≤ c.pending.index := by
      simpa [PendingBlock.executionComplete] using hcomp
    have hlen : c.pending.index = c.pending.txs.length :=
      le_antisymm hwf.1 hcomp2
    have hguard1 :
        (!c.pending.executionStarted && !c.pending.isEmpty) = false := by
      by_cases hemp : c.pending.isEmpty = true
      · simp [hemp]
      · have hlenpos : 0 < c.pending.txs.length := by
          cases htx : c.pending.txs with
          | nil => exact absurd (by simp [PendingBlock.isEmpty, htx]) hemp
          | cons a l => simp [htx]
        have hst : c.pending.executionStarted = true := by
          simp only [PendingBlock.executionStarted, decide_eq_true_eq]
          omega
        simp [hst]
    have hguard2 :
        (c.pending.executionStarted && !c.pending.executionComplete) =
          false := by
      simp [hcomp]
    have hlens : (c.pending.txs.map (fun t => (t.id, t))).length =
        c.pending.results.length := by
      simp [hwf.2, hlen]
    simp [commitBlockF, hguard1, hguard2, storeCommitBlock, hlens]

def resStub : TxResult := ⟨0, "", [], []⟩

def pbMid : PendingBlock :=
  { height := 1, parentID := 0, txs := [⟨7, "a"⟩, ⟨8, "b"⟩],
    results := [(7, resStub)], events := [], blockDelta := [], index := 1 }

/-- Witness for C5 at a pending block caught mid-execution. -/
theorem commit_block_facade_guards_witness :
    PendingWF pbMid ∧
    pbMid.executionStarted = true ∧ pbMid.executionComplete = false ∧
    commitBlockF true ⟨emptyStore, pbMid⟩ =
      (Except.error (EmuErr.pendingBlockMidExecution pbMid.idOf),
        ⟨emptyStore, pbMid⟩) :=
  ⟨by decide, by decide, by decide,
    (commit_block_facade_guards ⟨emptyStore, pbMid⟩ (by decide)).1
      (by decide) (by decide)⟩

/-- C6.  Before execution of the pending block has started, re-submitting a
transaction whose id is already pending or already committed to storage is
rejected with `DuplicateTransaction` and leaves the chain (in particular the
pending block) unchanged. -/
theorem add_transaction_duplicate_rejected (vOk : Bool) (tx : Tx) (c : Chain)
    (hns : c.pending.executionStarted = false)
    (hdup : c.pending.containsTransaction tx.id = true ∨
      (c.store.db.txsStore tx.id).isSome = true) :
    addTransaction vOk tx c = (some (EmuErr.duplicateTransaction tx.id), c) := by
  rcases hdup with h | h
  · simp [addTransaction, hns, h]
  · by_cases h2 : c.pending.containsTransaction tx.id = true
    · simp [addTransaction, hns, h2]
    · simp [addTransaction, hns, h2, h]

def pbWithTx : PendingBlock :=
  { height := 1, parentID := 0, txs := [txStub], results := [], events := [],
    blockDelta := [], index := 0 }

/-- Witness for C6: re-submitting the transaction already pending. -/
theorem add_transaction_duplicate_rejected_witness :
    pbWithTx.executionStarted = false ∧
    pbWithTx.containsTransaction txStub.id = true ∧
    addTransaction true txStub ⟨emptyStore, pbWithTx⟩ =
      (some (EmuErr.duplicateTransaction txStub.id), ⟨emptyStore, pbWithTx⟩) :=
  ⟨by decide, by decide,
    add_transaction_duplicate_rejected true txStub ⟨emptyStore, pbWithTx⟩
      (by decide) (Or.inl (by decide))⟩

lemma executeNextTransaction_ok_shape (vm : VM) (c : Chain) (r : TxResult)
    (c2 : Chain)
    (h : executeNextTransaction vm c = (Except.ok r, c2)) :
    c2.store = c.store ∧ c2.pending.txs = c.pending.txs ∧
    c2.pending.height = c.pending.height ∧
    c2.pending.parentID = c.pending.parentID ∧
    c2.pending.index = c.pending.index + 1 ∧
    c2.pending.results.length = c.pending.results.length + 1 := by
  unfold executeNextTransaction at h
  split at h
  · simp at h
  · split at h
    · simp at h
    · split at h
      · simp at h
      · simp only [Prod.mk.injEq] at h
        obtain ⟨h1, h2⟩ := h
        subst h2
        refine ⟨rfl, rfl, rfl, rfl, rfl, ?_⟩
        simp

/-- C7.  After any successful `ExecuteNextTransaction` on the pending block
(and before any reset), `AddTransaction` is rejected with
`PendingBlockMidExecution` and the chain — in particular the pending block's
transaction list — is unchanged. -/
theorem add_transaction_after_execute_rejected (vm : VM) (vOk : Bool)
    (tx : Tx) (c c2 : Chain) (r : TxResult)
    (hexec : executeNextTransaction vm c = (Except.ok r, c2)) :
    addTransaction vOk tx c2 =
      (some (EmuErr.pendingBlockMidExecution c2.pending.idOf), c2) := by
  have hidx := (executeNextTransaction_ok_shape vm c r c2 hexec).2.2.2.2.1
  have hstart : c2.pending.executionStarted = true := by
    simp [PendingBlock.executionStarted, hidx]
  simp [addTransaction, hstart]

def vmTrivial : VM := fun _ => some (resStub, [])

def txStub2 : Tx := ⟨8, "transaction { execute {} }"⟩

def pbAfterExec : PendingBlock :=
  { height := 1, parentID := 0, txs := [txStub], results := [(7, resStub)],
    events := [], blockDelta := [], index := 1 }

/-- Witness for C7: execute the single pending transaction, then try to add
another transaction. -/
theorem add_transaction_after_execute_rejected_witness :
    executeNextTransaction vmTrivial ⟨emptyStore, pbWithTx⟩ =
      (Except.ok resStub, ⟨emptyStore, pbAfterExec⟩) ∧
    addTransaction true txStub2 ⟨emptyStore, pbAfterExec⟩ =
      (some (EmuErr.pendingBlockMidExecution pbAfterExec.idOf),
        ⟨emptyStore, pbAfterExec⟩) :=
  ⟨rfl,
    add_transaction_after_execute_rejected vmTrivial true txStub2
      ⟨emptyStore, pbWithTx⟩ ⟨emptyStore, pbAfterExec⟩ resStub rfl⟩

/-- C8.  `GetTransactionResult` reports `Pending` when the id is in the
pending block; `Unknown` when the id is in neither the pending block nor
committed storage; and `Sealed` for a stored result, attaching the stored
execution error exactly when the stored error code is non-zero and carrying
the stored events. -/
theorem get_transaction_result_status (c : Chain) (txID : Nat) :
    (c.pending.containsTransaction txID = true →
      getTransactionResultF c txID = ⟨TxStatus.pending, none, []⟩) ∧
    (c.pending.containsTransaction txID = false →
      c.store.db.txResults txID = none →
      getTransactionResultF c txID = ⟨TxStatus.unknown, none, []⟩) ∧
    (∀ res : TxResult, c.pending.containsTransaction txID = false →
      c.store.db.txResults txID = some res →
      (getTransactionResultF c txID).status = TxStatus.sealed ∧
      (res.errorCode ≠ 0 →
        (getTransactionResultF c txID).errInfo =
          some (res.errorCode, res.errorMessage)) ∧
      (res.errorCode = 0 → (getTransactionResultF c txID).errInfo = none) ∧
      (getTransactionResultF c txID).events = res.events) := by
  refine ⟨?_, ?_, ?_⟩
  · intro h
    simp [getTransactionResultF, h]
  · intro h1 h2
    simp [getTransactionResultF, h1, h2]
  · intro res h1 h2
    refine ⟨?_, ?_, ?_, ?_⟩
    · simp [getTransactionResultF, h1, h2]
    · intro hc
      simp [getTransactionResultF, h1, h2, hc]
    · intro hc
      simp [getTransactionResultF, h1, h2, hc]
    · simp [getTransactionResultF, h1, h2]

def resErr : TxResult := ⟨5, "boom", [], []⟩

def storeWithRes : Store :=
  { emptyStore with db :=
    { emptyStore.db with
      txResults := Function.update emptyStore.db.txResults 9 (some resErr) } }

def pbFresh : PendingBlock := newPendingBlock ⟨0, 0, 0⟩

/-- Witness for C8 at a stored failing result and an empty pending block. -/
theorem get_transaction_result_status_witness :
    pbFresh.containsTransaction 9 = false ∧
    storeWithRes.db.txResults 9 = some resErr ∧
    ((getTransactionResultF ⟨storeWithRes, pbFresh⟩ 9).status =
        TxStatus.sealed ∧
      (resErr.errorCode ≠ 0 →
        (getTransactionResultF ⟨storeWithRes, pbFresh⟩ 9).errInfo =
          some (resErr.errorCode, resErr.errorMessage)) ∧
      (resErr.errorCode = 0 →
        (getTransactionResultF ⟨storeWithRes, pbFresh⟩ 9).errInfo = none) ∧
      (getTransactionResultF ⟨storeWithRes, pbFresh⟩ 9).events =
        resErr.events) :=
  ⟨by decide, rfl,
    (get_transaction_result_status ⟨storeWithRes, pbFresh⟩ 9).2.2 resErr
      (by decide) rfl⟩

/-! ## CreateAccount commits two blocks (claim C10) -/

lemma applyInsertLedgerDelta_latest (h : Nat) (d : Delta) (s : Store) :
    (applyInsertLedgerDelta h d s).db.latest = s.db.latest := by
  induction d generalizing s with
  | nil => rfl
  | cons e tl ih =>
    have hstep : applyInsertLedgerDelta h (e :: tl) s =
        applyInsertLedgerDelta h tl (insertDeltaEntry h s e) := rfl
    rw [hstep, ih]
    cases h2 : e.2 <;> simp [insertDeltaEntry, h2]

lemma applyInsertEvents_latest (h : Nat) (evs : List Event) (s : Store) :
    (applyInsertEvents h evs s).db.latest = s.db.latest := by
  induction evs generalizing s with
  | nil => rfl
  | cons e tl ih =>
    have hstep : applyInsertEvents h (e :: tl) s = applyInsertEvents h tl
        { s with db :=
          { s.db with events := eventKVSet (mkEventKey h e) e s.db.events } } :=
      rfl
    rw [hstep, ih]

lemma foldl_insertCollection_latest (cols : List Collection) (s : Store) :
    (cols.foldl (fun s col => applyInsertCollection col s) s).db.latest =
      s.db.latest := by
  induction cols generalizing s with
  | nil => rfl
  | cons p tl ih => rw [List.foldl_cons, ih]; rfl

lemma foldl_insertTransaction_latest (txsl : List (Nat × Tx)) (s : Store) :
    (txsl.foldl (fun s p => applyInsertTransaction p.1 p.2 s) s).db.latest =
      s.db.latest := by
  induction txsl generalizing s with
  | nil => rfl
  | cons p tl ih => rw [List.foldl_cons, ih]; rfl

lemma foldl_insertTransactionResult_latest (resl : List (Nat × TxResult))
    (s : Store) :
    (resl.foldl (fun s p => applyInsertTransactionResult p.1 p.2 s)
      s).db.latest = s.db.latest := by
  induction resl generalizing s with
  | nil => rfl
  | cons p tl ih => rw [List.foldl_cons, ih]; rfl

lemma applyCommitWrites_latest (b : Block) (cols : List Collection)
    (txsl : List (Nat × Tx)) (resl : List (Nat × TxResult)) (d : Delta)
    (evs : List Event) (s : Store) :
    (applyCommitWrites b cols txsl resl d evs s).db.latest =
      (if b.height ≥ s.db.latest.getD 0 then some b.height
       else s.db.latest) := by
  unfold applyCommitWrites
  rw [applyInsertEvents_latest, applyInsertLedgerDelta_latest,
    foldl_insertTransactionResult_latest, foldl_insertTransaction_latest,
    foldl_insertCollection_latest]
  rfl

lemma commitBlockF_ok (gitOk : Bool) (c : Chain) (blk : Block) (c2 : Chain)
    (h : commitBlockF gitOk c = (Except.ok blk, c2)) :
    blk = c.pending.toBlock ∧
    c2.pending = newPendingBlock c.pending.toBlock ∧
    c2.store.db.latest =
      (if c.pending.toBlock.height ≥ c.store.db.latest.getD 0
       then some c.pending.toBlock.height else c.store.db.latest) := by
  unfold commitBlockF at h
  split at h
  · simp at h
  · split at h
    · simp at h
    · split at h
      · simp at h
      · rename_i s2 heq
        simp only [Prod.mk.injEq, Except.ok.injEq] at h
        obtain ⟨hb, hc⟩ := h
        subst hb
        subst hc
        refine ⟨rfl, rfl, ?_⟩
        unfold storeCommitBlock at heq
        split at heq
        · simp at heq
        · split at heq
          · simp only [Prod.mk.injEq] at heq
            obtain ⟨-, hs⟩ := heq
            rw [show ({ store := s2, pending :=
                newPendingBlock c.pending.toBlock } : Chain).store = s2 from
                rfl,
              ← hs, applyCommitWrites_latest]
          · simp at heq

lemma addTransaction_ok (vOk : Bool) (tx : Tx) (c c1 : Chain)
    (h : addTransaction vOk tx c = (none, c1)) :
    c1.store = c.store ∧ c1.pending.height = c.pending.height := by
  unfold addTransaction at h
  split at h
  · simp at h
  · split at h
    · simp at h
    · split at h
      · simp at h
      · split at h
        · simp at h
        · simp only [Prod.mk.injEq] at h
          obtain ⟨-, hc⟩ := h
          subst hc
          exact ⟨rfl, rfl⟩

lemma executeRemaining_ok_preserves (vm : VM) (n : Nat) (c : Chain)
    (rs : List TxResult) (c2 : Chain)
    (h : executeRemaining vm n c = (Except.ok rs, c2)) :
    c2.store = c.store ∧ c2.pending.height = c.pending.height := by
  induction n generalizing c rs with
  | zero =>
    simp only [executeRemaining, Prod.mk.injEq] at h
    obtain ⟨-, hc⟩ := h
    subst hc
    exact ⟨rfl, rfl⟩
  | succ n ih =>
    unfold executeRemaining at h
    split at h
    · simp at h
    · rename_i r cmid heq1
      split at h
      · rename_i rs2 c3 heq2
        simp only [Prod.mk.injEq, Except.ok.injEq] at h
        obtain ⟨-, hc⟩ := h
        subst hc
        have h1 := executeNextTransaction_ok_shape vm c r cmid heq1
        have h2 := ih cmid rs2 heq2
        exact ⟨h2.1.trans h1.1, h2.2.trans h1.2.2.1⟩
      · simp at h

lemma executeBlock_ok_preserves (vm : VM) (c : Chain) (rs : List TxResult)
    (c2 : Chain) (h : executeBlock vm c = (Except.ok rs, c2)) :
    c2.store = c.store ∧ c2.pending.height = c.pending.height := by
  unfold executeBlock at h
  split at h
  · simp only [Prod.mk.injEq] at h
    obtain ⟨-, hc⟩ := h
    subst hc
    exact ⟨rfl, rfl⟩
  · split at h
    · simp at h
    · exact executeRemaining_ok_preserves vm _ c rs c2 h

lemma executeAndCommitBlock_ok (vm : VM) (gitOk : Bool) (c : Chain)
    (blk : Block) (results : List TxResult) (c2 : Chain)
    (h : executeAndCommitBlock vm gitOk c =
      (Except.ok (blk, results), c2)) :
    ∃ rs cmid, executeBlock vm c = (Except.ok rs, cmid) ∧
      commitBlockF gitOk cmid = (Except.ok blk, c2) := by
  unfold executeAndCommitBlock at h
  split at h
  · simp at h
  · rename_i rs cmid heq1
    split at h
    · simp at h
    · rename_i blk2 c3 heq2
      simp only [Prod.mk.injEq, Except.ok.injEq] at h
      obtain ⟨⟨hb, hr⟩, hc⟩ := h
      subst hb
      subst hc
      exact ⟨rs, cmid, heq1, heq2⟩

/-- C10.  A successful `CreateAccount` call commits two blocks: it executes
and commits the block carrying the account-creation transaction and then
invokes `commitBlock` a second time on the freshly reset empty pending
block, so the latest committed height grows by exactly 2. -/
theorem create_account_commits_two_blocks (vm : VM) (vOk gitOk : Bool)
    (txC : Tx) (c cf : Chain) (addr H : Nat)
    (hlat : c.store.db.latest = some H)
    (hh : c.pending.height = H + 1)
    (hok : createAccountF vm vOk gitOk txC c = (Except.ok addr, cf)) :
    cf.store.db.latest = some (H + 2) := by
  unfold createAccountF at hok
  split at hok
  · simp at hok
  · split at hok
    · simp at hok
    · rename_i c1 heqadd
      split at hok
      · simp at hok
      · rename_i blk results c2 heqec
        obtain ⟨rs, cmid, heqexec, heqcommit⟩ :=
          executeAndCommitBlock_ok vm gitOk c1 blk results c2 heqec
        have hadd := addTransaction_ok vOk txC c c1 heqadd
        have hexec := executeBlock_ok_preserves vm c1 rs cmid heqexec
        have hcommit := commitBlockF_ok gitOk cmid blk c2 heqcommit
        have hmidheight : cmid.pending.height = H + 1 := by
          rw [hexec.2, hadd.2, hh]
        have hmidlat : cmid.store.db.latest = some H := by
          rw [hexec.1, hadd.1, hlat]
        have hc2lat : c2.store.db.latest = some (H + 1) := by
          rw [hcommit.2.2]
          simp [PendingBlock.toBlock, hmidheight, hmidlat]
        have hc2height : c2.pending.height = H + 2 := by
          rw [hcommit.2.1]
          simp [newPendingBlock, PendingBlock.toBlock, hmidheight]
        split at hok
        · simp at hok
        · split at hok
          · simp at hok
          · rename_i blk2 c3 heqcommit2
            have hcommit2 := commitBlockF_ok gitOk c2 blk2 c3 heqcommit2
            have hc3lat : c3.store.db.latest = some (H + 2) := by
              rw [hcommit2.2.2]
              simp [PendingBlock.toBlock, hc2height, hc2lat]
            split at hok
            · simp at hok
            · split at hok
              · simp at hok
              · split at hok
                · simp at hok
                · simp only [Prod.mk.injEq, Except.ok.injEq] at hok
                  obtain ⟨-, hc⟩ := hok
                  subst hc
                  exact hc3lat

def resAcct : TxResult :=
  ⟨0, "", [], [⟨"flow.AccountCreated", 0, 0, [5]⟩]⟩

def vmAcct : VM := fun _ => some (resAcct, [])

def chainStart : Chain :=
  ⟨{ emptyStore with db := { emptyStore.db with latest := some 0 } }, pbFresh⟩

/-- Witness for C10: a concrete successful `CreateAccount` run starting at
latest height 0 ends with the latest height 2. -/
theorem create_account_commits_two_blocks_witness :
    chainStart.store.db.latest = some 0 ∧
    chainStart.pending.height = 0 + 1 ∧
    (createAccountF vmAcct true true txStub chainStart).2.store.db.latest =
      some (0 + 2) :=
  ⟨rfl, rfl,
    create_account_commits_two_blocks vmAcct true true txStub chainStart
      (createAccountF vmAcct true true txStub chainStart).2 5 0 rfl rfl rfl⟩

/-! ## EventsByHeight: exactness and ordering (claim C9) -/

/-- The event key as a lexicographic tuple, for order reasoning. -/
def EventKey.toLexTuple (k : EventKey) : Lex (Nat × Lex (Nat × Lex (Nat × String))) :=
  toLex (k.height, toLex (k.txIndex, toLex (k.eventIndex, k.type)))

lemma EventKey.lt_iff_toLexTuple (a b : EventKey) :
    EventKey.lt a b ↔ a.toLexTuple < b.toLexTuple := by
  unfold EventKey.lt EventKey.toLexTuple
  simp only [Prod.Lex.lt_iff]

lemma EventKey.toLexTuple_inj {a b : EventKey}
    (h : a.toLexTuple = b.toLexTuple) : a = b := by
  unfold EventKey.toLexTuple at h
  have h1 := toLex.injective h
  simp only [Prod.mk.injEq] at h1
  obtain ⟨hh, h2⟩ := h1
  have h3 := toLex.injective h2
  simp only [Prod.mk.injEq] at h3
  obtain ⟨ht, h4⟩ := h3
  have h5 := toLex.injective h4
  simp only [Prod.mk.injEq] at h5
  obtain ⟨he, hs⟩ := h5
  cases a
  cases b
  simp_all

lemma EventKey.lt_trans2 {a b c : EventKey} (h1 : EventKey.lt a b)
    (h2 : EventKey.lt b c) : EventKey.lt a c := by
  rw [EventKey.lt_iff_toLexTuple] at *
  exact lt_trans h1 h2

lemma EventKey.lt_total_of_ne {a b : EventKey} (h : ¬a = b) :
    EventKey.lt a b ∨ EventKey.lt b a := by
  rcases lt_trichotomy a.toLexTuple b.toLexTuple with h1 | h1 | h1
  · exact Or.inl ((EventKey.lt_iff_toLexTuple a b).mpr h1)
  · exact absurd (EventKey.toLexTuple_inj h1) h
  · exact Or.inr ((EventKey.lt_iff_toLexTuple b a).mpr h1)

/-- The event entries remain sorted by strict key order (badger's key
space). -/
def EventKVSorted (l : List (EventKey × Event)) : Prop :=
  l.Pairwise (fun a b => EventKey.lt a.1 b.1)

/-- Every stored event entry's key repeats the event's transaction index,
event index and type (as written by `insertEvents`). -/
def EventKVFields (l : List (EventKey × Event)) : Prop :=
  ∀ kv ∈ l, kv.1.txIndex = kv.2.txIndex ∧ kv.1.eventIndex = kv.2.eventIndex ∧
    kv.1.type = kv.2.type

lemma mem_eventKVSet (k : EventKey) (v : Event) (l : List (EventKey × Event))
    (x : EventKey × Event) (hx : x ∈ eventKVSet k v l) :
    x = (k, v) ∨ x ∈ l := by
  induction l with
  | nil => simpa [eventKVSet] using hx
  | cons p tl ih =>
    obtain ⟨k2, v2⟩ := p
    unfold eventKVSet at hx
    split at hx
    · rcases List.mem_cons.mp hx with h | h
      · exact Or.inl h
      · exact Or.inr h
    · split at hx
      · rcases List.mem_cons.mp hx with h | h
        · exact Or.inl h
        · exact Or.inr (List.mem_cons_of_mem _ h)
      · rcases List.mem_cons.mp hx with h | h
        · exact Or.inr (h ▸ List.mem_cons_self _ _)
        · rcases ih h with h2 | h2
          · exact Or.inl h2
          · exact Or.inr (List.mem_cons_of_mem _ h2)

lemma eventKVSet_sorted (k : EventKey) (v : Event)
    (l : List (EventKey × Event))
    (hs : l.Pairwise (fun a b => EventKey.lt a.1 b.1)) :
    (eventKVSet k v l).Pairwise (fun a b => EventKey.lt a.1 b.1) := by
  induction l with
  | nil => simp [eventKVSet]
  | cons p tl ih =>
    obtain ⟨k2, v2⟩ := p
    rw [List.pairwise_cons] at hs
    obtain ⟨hall, htl⟩ := hs
    unfold eventKVSet
    split
    · rename_i hlt
      rw [List.pairwise_cons]
      constructor
      · intro x hx
        rcases List.mem_cons.mp hx with h | h
        · rw [h]
          exact hlt
        · exact EventKey.lt_trans2 hlt (hall x h)
      · rw [List.pairwise_cons]
        exact ⟨hall, htl⟩
    · split
      · rename_i hnlt heqk
        rw [List.pairwise_cons]
        refine ⟨?_, htl⟩
        intro x hx
        rw [heqk]
        exact hall x hx
      · rename_i hnlt hne
        rw [List.pairwise_cons]
        refine ⟨?_, ih htl⟩
        intro x hx
        rcases mem_eventKVSet k v tl x hx with h | h
        · rw [h]
          rcases EventKey.lt_total_of_ne hne with h1 | h1
          · exact absurd h1 hnlt
          · exact h1
        · exact hall x h

lemma eventKVSet_fields (k : EventKey) (v : Event)
    (l : List (EventKey × Event)) (hf : EventKVFields l)
    (hk : k.txIndex = v.txIndex ∧ k.eventIndex = v.eventIndex ∧
      k.type = v.type) : EventKVFields (eventKVSet k v l) := by
  intro kv hkv
  rcases mem_eventKVSet k v l kv hkv with h | h
  · rw [h]
    exact hk
  · exact hf kv h

lemma applyInsertEvents_sorted_fields (h : Nat) (evs : List Event)
    (s : Store) (hs : EventKVSorted s.db.events)
    (hf : EventKVFields s.db.events) :
    EventKVSorted (applyInsertEvents h evs s).db.events ∧
    EventKVFields (applyInsertEvents h evs s).db.events := by
  induction evs generalizing s with
  | nil => exact ⟨hs, hf⟩
  | cons e tl ih =>
    have hstep : applyInsertEvents h (e :: tl) s = applyInsertEvents h tl
        { s with db :=
          { s.db with events := eventKVSet (mkEventKey h e) e s.db.events } } :=
      rfl
    rw [hstep]
    exact ih _ (eventKVSet_sorted _ _ _ hs)
      (eventKVSet_fields _ _ _ hf ⟨rfl, rfl, rfl⟩)

/-- A sequence of `InsertEvents` calls applied in order. -/
def insertEventsOps (ops : List (Nat × List Event)) (s : Store) : Store :=
  ops.foldl (fun s op => applyInsertEvents op.1 op.2 s) s

lemma insertEventsOps_sorted_fields (ops : List (Nat × List Event)) :
    EventKVSorted (insertEventsOps ops emptyStore).db.events ∧
    EventKVFields (insertEventsOps ops emptyStore).db.events := by
  suffices hgen : ∀ s : Store, EventKVSorted s.db.events →
      EventKVFields s.db.events →
      EventKVSorted (insertEventsOps ops s).db.events ∧
      EventKVFields (insertEventsOps ops s).db.events by
    refine hgen emptyStore ?_ ?_
    · simp [emptyStore, EventKVSorted]
    · intro kv hkv
      simp [emptyStore] at hkv
  induction ops with
  | nil => exact fun s hs hf => ⟨hs, hf⟩
  | cons op tl ih =>
    intro s hs hf
    have hstep : insertEventsOps (op :: tl) s =
        insertEventsOps tl (applyInsertEvents op.1 op.2 s) := rfl
    rw [hstep]
    obtain ⟨h1, h2⟩ := applyInsertEvents_sorted_fields op.1 op.2 s hs hf
    exact ih _ h1 h2

/-- Modelled from the spec: the type filter of `EventsByHeight` — an event
key matches the requested type when the type recorded in the key equals it,
and an empty filter matches everything (the key-parsing helper
`eventKeyHasType` is not among the provided sources). -/
def eventKeyMatches (t : String) (k : EventKey) : Bool :=
  t = "" || k.type = t

/-- `Store.EventsByHeight(blockHeight, eventType)`: iterate the
`event/<blockHeight>/...` prefix in sorted key order, keep the keys matching
the type filter, and return the stored events in iteration order. -/
def eventsByHeight (s : Store) (h : Nat) (t : String) : List Event :=
  (s.db.events.filter
    (fun kv => kv.1.height = h && eventKeyMatches t kv.1)).map Prod.snd

/-- C9.  Over any store reached by a sequence of event insertions,
`EventsByHeight h t` returns exactly the events stored under height `h`
whose type matches the filter (all of them when the filter is empty), and
the returned list is in ascending `(tx_index, event_index)` order. -/
theorem events_by_height_exact_and_ordered (ops : List (Nat × List Event))
    (h : Nat) (t : String) :
    (∀ e : Event, e ∈ eventsByHeight (insertEventsOps ops emptyStore) h t ↔
      ∃ k : EventKey, (k, e) ∈ (insertEventsOps ops emptyStore).db.events ∧
        k.height = h ∧ (t = "" ∨ e.type = t)) ∧
    (eventsByHeight (insertEventsOps ops emptyStore) h t).Pairwise
      (fun e1 e2 => e1.txIndex < e2.txIndex ∨
        (e1.txIndex = e2.txIndex ∧ e1.eventIndex ≤ e2.eventIndex)) := by
  obtain ⟨hsort, hfield⟩ := insertEventsOps_sorted_fields ops
  constructor
  · intro e
    constructor
    · intro he
      unfold eventsByHeight at he
      rw [List.mem_map] at he
      obtain ⟨kv, hkv, hsnd⟩ := he
      rw [List.mem_filter] at hkv
      obtain ⟨hmem, hcond⟩ := hkv
      simp only [Bool.and_eq_true, decide_eq_true_eq, eventKeyMatches,
        Bool.or_eq_true] at hcond
      refine ⟨kv.1, ?_, hcond.1, ?_⟩
      · rw [← hsnd]
        exact hmem
      · rcases hcond.2 with h1 | h1
        · exact Or.inl h1
        · right
          rw [← hsnd, ← (hfield kv hmem).2.2]
          exact h1
    · rintro ⟨k, hk, hh, ht⟩
      unfold eventsByHeight
      rw [List.mem_map]
      refine ⟨(k, e), ?_, rfl⟩
      rw [List.mem_filter]
      refine ⟨hk, ?_⟩
      simp only [Bool.and_eq_true, decide_eq_true_eq, eventKeyMatches,
        Bool.or_eq_true]
      have hkt : k.type = e.type := (hfield (k, e) hk).2.2
      rcases ht with h1 | h1
      · exact ⟨hh, Or.inl (by simp [h1])⟩
      · exact ⟨hh, Or.inr (by simp [hkt, h1])⟩
  · unfold eventsByHeight
    rw [List.pairwise_map]
    have hsub : ((insertEventsOps ops emptyStore).db.events.filter
        (fun kv => kv.1.height = h && eventKeyMatches t kv.1)).Pairwise
        (fun a b => EventKey.lt a.1 b.1) :=
      List.Pairwise.sublist (List.filter_sublist _) hsort
    apply List.Pairwise.imp_of_mem ?_ hsub
    intro a b ha hb hlt
    have hac := (List.mem_filter.mp ha).2
    have hbc := (List.mem_filter.mp hb).2
    simp only [Bool.and_eq_true, decide_eq_true_eq] at hac hbc
    have hamem := List.mem_of_mem_filter ha
    have hbmem := List.mem_of_mem_filter hb
    have haf := hfield a hamem
    have hbf := hfield b hbmem
    unfold EventKey.lt at hlt
    rcases hlt with h1 | ⟨heq, h2⟩
    · rw [hac.1, hbc.1] at h1
      exact absurd h1 (lt_irrefl h)
    · rcases h2 with h3 | ⟨heq2, h4⟩
      · left
        rw [← haf.1, ← hbf.1]
        exact h3
      · right
        constructor
        · rw [← haf.1, ← hbf.1]
          exact heq2
        · rcases h4 with h5 | ⟨heq3, _⟩
          · rw [← haf.2.1, ← hbf.2.1]
            exact le_of_lt h5
          · rw [← haf.2.1, ← hbf.2.1, heq3]
